import Mathlib

/-
Verification of the olric storage engine (src/internal/kvstore/kvstore.go)
and the advisory lock protocol (src/internal/dmap/lock.go).

The engine's table chain, read/write/delete scans, growth policy, and the
export and import paths are embedded from kvstore.go.  table.go and the
DMap internals (get, conditional put, deleteKey, prepareAndSerialize) are not
part of the provided sources; they are modelled from the specification, and each
such definition says so in its doc comment.  Byte slabs are abstracted: a table
keeps its index as an association list from hashed key to entry, together with
the offset, inuse, garbage and allocated counters maintained exactly as the
specification prescribes.  msgpack serialization is modelled as the identity on
the transport record (msgpack round-trips).  The float64 comparison
float64(allocated)*0.40 <= float64(garbage) is modelled by the exact rational
inequality 2*allocated <= 5*garbage.
-/

namespace Olric

/-- Byte strings are modelled as lists of naturals. -/
abbrev Bytes := List Nat

/-- Modelled from the spec: an entry carries key string, value bytes,
timestamp and TTL (0 = no expiry). -/
structure Entry where
  key : String
  value : Bytes
  ttl : Int
  timestamp : Int
deriving DecidableEq

/-- Modelled from the spec: entries are length-prefixed and self-describing;
the frame is a fixed header (klen byte, ttl and timestamp words, value length
word: 21 bytes) plus the key and value bytes. -/
def Entry.encodedLen (e : Entry) : Nat :=
  e.key.length + e.value.length + 21

/-- minimumSize from kvstore.go: 1 << 16 bytes. -/
def minimumSize : Nat := 65536

/-- A table: index from hashed key to entry plus the four counters.  The byte
slab is abstracted into the association of keys to entries. -/
structure Table where
  hkeys : List (Nat × Entry)
  offset : Nat
  inuse : Nat
  garbage : Nat
  allocated : Nat
deriving DecidableEq

/-- Modelled from the spec: newTable allocates a fresh empty table whose
capacity is clamped to the 65,536-byte minimum ("table capacity is a power of
two ≥ 65,536 bytes by default"; engine growth is max(minimum, 2*inuse)). -/
def newTable (size : Nat) : Table :=
  { hkeys := [], offset := 0, inuse := 0, garbage := 0,
    allocated := max minimumSize size }

/-- Index lookup inside one table. -/
def Table.lookup (t : Table) (hk : Nat) : Option Entry :=
  (t.hkeys.find? (fun p => p.1 == hk)).map (fun p => p.2)

/-- Modelled from the spec: table put.  Fails (returns none, the
NotEnoughSpace signal) when the frame does not fit; otherwise appends the
entry, moving a prior copy of the key to garbage. -/
def Table.put (t : Table) (hk : Nat) (e : Entry) : Option Table :=
  if t.allocated < t.offset + e.encodedLen then none
  else
    match t.lookup hk with
    | some prior =>
      some { t with
        hkeys := (hk, e) :: t.hkeys.filter (fun p => p.1 != hk),
        offset := t.offset + e.encodedLen,
        inuse := t.inuse - prior.encodedLen + e.encodedLen,
        garbage := t.garbage + prior.encodedLen }
    | none =>
      some { t with
        hkeys := (hk, e) :: t.hkeys,
        offset := t.offset + e.encodedLen,
        inuse := t.inuse + e.encodedLen }

/-- Modelled from the spec: table get returns (entry, false) on a hit and
(none, true) — the "previous" flag — on a miss. -/
def Table.get (t : Table) (hk : Nat) : Option Entry × Bool :=
  match t.lookup hk with
  | some e => (some e, false)
  | none => (none, true)

/-- Modelled from the spec: table delete removes the index entry and moves its
bytes to garbage, returning false; on a miss it returns true ("try older"). -/
def Table.delete (t : Table) (hk : Nat) : Table × Bool :=
  match t.lookup hk with
  | none => (t, true)
  | some prior =>
    ({ t with
        hkeys := t.hkeys.filter (fun p => p.1 != hk),
        inuse := t.inuse - prior.encodedLen,
        garbage := t.garbage + prior.encodedLen }, false)

/-- The engine: ordered chain of tables, oldest first (kvstore.go KVStore). -/
structure KVStore where
  tables : List Table
deriving DecidableEq

/-- New (kvstore.go): install exactly one table of the requested size. -/
def KVStore.New (tableSize : Nat) : KVStore :=
  ⟨[newTable tableSize]⟩

/-- Total in-use bytes of a list of tables. -/
def inuseL (l : List Table) : Nat := (l.map Table.inuse).sum

/-- Inuse (kvstore.go): total in-use space over the chain. -/
def KVStore.Inuse (kv : KVStore) : Nat := inuseL kv.tables

/-- Len (kvstore.go): total key count over the chain. -/
def KVStore.Len (kv : KVStore) : Nat :=
  (kv.tables.map (fun t => t.hkeys.length)).sum

/-- Stats (kvstore.go): (allocated, inuse, garbage) summed over the chain. -/
def KVStore.Stats (kv : KVStore) : Nat × Nat × Nat :=
  ((kv.tables.map Table.allocated).sum,
   (kv.tables.map Table.inuse).sum,
   (kv.tables.map Table.garbage).sum)

/-- Engine-level error values (storage.ErrKeyNotFound, storage.ErrFragmented).
Table NotEnoughSpace is internal and never surfaces. -/
inductive SErr where
  | keyNotFound
  | fragmented
deriving DecidableEq

/-- Outcome of the engine Put loop: normal return with its soft signal, the
"tables cannot be empty" panic, or non-termination of the retry loop (modelled
by fuel exhaustion). -/
inductive PutResult where
  | ok (kv : KVStore) (res : Option SErr)
  | panicked
  | diverged
deriving DecidableEq

/-- The retry loop of Put (kvstore.go): try the last table; on NotEnoughSpace
append newTable(Inuse()*2), remember the Fragmented signal and retry. -/
def putLoop : Nat → KVStore → Nat → Entry → Option SErr → PutResult
  | 0, _, _, _, _ => .diverged
  | Nat.succ fuel, kv, hk, e, res =>
    match kv.tables.getLast? with
    | none => .panicked
    | some t =>
      match t.put hk e with
      | none =>
        putLoop fuel ⟨kv.tables ++ [newTable (kv.Inuse * 2)]⟩ hk e
          (some .fragmented)
      | some t' => .ok ⟨kv.tables.dropLast ++ [t']⟩ res

/-- Put (kvstore.go): panic guard on an empty chain, then the retry loop. -/
def KVStore.Put (fuel : Nat) (kv : KVStore) (hk : Nat) (e : Entry) : PutResult :=
  if kv.tables.length = 0 then .panicked else putLoop fuel kv hk e none

/-- The Get scan (kvstore.go): the argument list is the chain newest first;
return the first table's entry whose "previous" flag is false. -/
def scanGet : List Table → Nat → Option Entry
  | [], _ => none
  | t :: rest, hk =>
    match t.get hk with
    | (res, false) => res
    | (_, true) => scanGet rest hk

/-- Get (kvstore.go): scan the chain from the newest (last) table down. -/
def KVStore.Get (kv : KVStore) (hk : Nat) : Except SErr Entry :=
  match scanGet kv.tables.reverse hk with
  | some e => .ok e
  | none => .error .keyNotFound

/-- The Delete scan (kvstore.go): the argument list is the chain newest first.
While a table reports "previous" (miss) continue to older tables; at the first
table that held the key, delete there and break. -/
def scanDelete : List Table → Nat → List Table
  | [], _ => []
  | t :: rest, hk =>
    match t.delete hk with
    | (t', true) => t' :: scanDelete rest hk
    | (t', false) => t' :: rest

/-- The chain after Delete's deletion pass, back in oldest-first order. -/
def deletionPass (kv : KVStore) (hk : Nat) : List Table :=
  (scanDelete kv.tables.reverse hk).reverse

/-- Delete (kvstore.go): deletion pass, then, on a single-table chain whose
garbage reaches 40 percent of allocated (float64 0.40 modelled as the exact
rational 2/5), append newTable(Inuse()*2) and report Fragmented. -/
def KVStore.Delete (kv : KVStore) (hk : Nat) : KVStore × Option SErr :=
  let ts := deletionPass kv hk
  match ts with
  | [t] =>
    if 2 * t.allocated ≤ 5 * t.garbage then
      (⟨ts ++ [newTable (inuseL ts * 2)]⟩, some .fragmented)
    else (⟨ts⟩, none)
  | _ => (⟨ts⟩, none)

/-- The transport record of Export/Import (kvstore.go).  The Memory byte slab
is subsumed by hkeys carrying the entries themselves. -/
structure Transport where
  hkeys : List (Nat × Entry)
  offset : Nat
  allocated : Nat
  inuse : Nat
  garbage : Nat
deriving DecidableEq

/-- Export (kvstore.go): only a single-table chain can be exported; otherwise
ErrFragmented.  msgpack marshalling is modelled as the identity. -/
def KVStore.Export (kv : KVStore) : Except SErr Transport :=
  match kv.tables with
  | [t] => .ok ⟨t.hkeys, t.offset, t.allocated, t.inuse, t.garbage⟩
  | _ => .error .fragmented

/-- Import (kvstore.go): build a fresh engine with one table sized from the
transport's allocated field, then install the index and the counters. -/
def KVStore.Import (tr : Transport) : KVStore :=
  ⟨[{ newTable tr.allocated with
      hkeys := tr.hkeys, offset := tr.offset,
      inuse := tr.inuse, garbage := tr.garbage }]⟩

/-- Engine states reachable through the state-mutating operations the engine
exposes: New, Put (any fuel), Delete and Import. -/
inductive Reachable : KVStore → Prop where
  | new (size : Nat) : Reachable (KVStore.New size)
  | put (kv kv' : KVStore) (fuel hk : Nat) (e : Entry) (res : Option SErr) :
      Reachable kv → KVStore.Put fuel kv hk e = .ok kv' res → Reachable kv'
  | del (kv : KVStore) (hk : Nat) :
      Reachable kv → Reachable (kv.Delete hk).1
  | imp (tr : Transport) : Reachable (KVStore.Import tr)

/-- DMap-level error values (src/internal/dmap): sentinel errors plus the
wrapped form produced by fmt.Errorf with percent-w. -/
inductive DErr where
  | keyNotFound
  | keyFound
  | noSuchLock
  | lockNotAcquired
  | wrapped (tag : String) (inner : DErr)
  | other (msg : String)
deriving DecidableEq

/-- Modelled from the spec: the state a DMap's lock protocol observes — the
stored value bytes per key string (one partition fragment's live entries). -/
def DMapState := List (String × Bytes)

instance : DecidableEq DMapState := by
  unfold DMapState
  infer_instance

/-- Association lookup for a DMap key. -/
def dmLookup (st : DMapState) (k : String) : Option Bytes :=
  (st.find? (fun p => p.1 == k)).map (fun p => p.2)

/-- Modelled from the spec: DMap get returns the stored entry value or
KeyNotFound (spec 4.D: get(name, key) -> Entry | KeyNotFound). -/
def dmGet (st : DMapState) (k : String) : Except DErr Bytes :=
  match dmLookup st k with
  | some v => .ok v
  | none => .error .keyNotFound

/-- Modelled from the spec: value serialization is self-describing and
invertible; unmarshalValue is modelled as the identity on byte lists. -/
def unmarshalValue (b : Bytes) : Except DErr Bytes := .ok b

/-- Modelled from the spec: deleteKey removes the key's entry. -/
def dmDeleteKey (st : DMapState) (k : String) : DMapState :=
  st.filter (fun p => p.1 != k)

/-- unlockKey (lock.go): get the entry (KeyNotFound becomes NoSuchLock),
decode it, compare with the token byte-for-byte (mismatch is NoSuchLock), then
delete.  deleteKey can fail for reasons outside this model (replication,
routing); that outcome is injected through delErr, and a failure is wrapped
with the tag "unlock failed because of delete". -/
def unlockKey (st : DMapState) (delErr : Option DErr) (k : String)
    (token : Bytes) : Except DErr Unit × DMapState :=
  match dmGet st k with
  | .error e =>
    if e = .keyNotFound then (.error .noSuchLock, st) else (.error e, st)
  | .ok stored =>
    match unmarshalValue stored with
    | .error e => (.error e, st)
    | .ok val =>
      if val ≠ token then (.error .noSuchLock, st)
      else
        match delErr with
        | some e =>
          (.error (.wrapped "unlock failed because of delete" e), st)
        | none => (.ok (), dmDeleteKey st k)

/-- Conditional-put conditions (spec 4.D). -/
inductive PutCondition where
  | always
  | ifNotFound
  | ifFound
deriving DecidableEq

/-- The protocol opcodes the lock layer uses (lock.go). -/
inductive OpCode where
  | putIf
  | putIfEx
  | unlockOp
deriving DecidableEq

/-- nilTimeout sentinel: zero TTL means no automatic expiry (spec glossary). -/
def nilTimeout : Int := 0

/-- The env a lock-path put carries (src/internal/dmap/env.go restricted to
the fields the lock path uses; env.go has no opcode field). -/
structure Env where
  condition : PutCondition
  dmap : String
  key : String
  value : Bytes
  timeout : Int
deriving DecidableEq

/-- Modelled from the spec: prepareAndSerialize builds the env
(dmap, key, value=token, ttl, condition); the opcode only selects the remote
message type and does not enter the env (env.go carries no opcode). -/
def prepareAndSerialize (_opcode : OpCode) (dmapName k : String)
    (token : Bytes) (timeout : Int) (cond : PutCondition) : Env :=
  { condition := cond, dmap := dmapName, key := k,
    value := token, timeout := timeout }

/-- Modelled from the spec: conditional put (spec 4.D).  IfNotFound on a live
key fails with KeyFound; otherwise the value is stored. -/
def dmPut (st : DMapState) (e : Env) : Except DErr DMapState :=
  match e.condition with
  | .ifNotFound =>
    match dmLookup st e.key with
    | some _ => .error .keyFound
    | none => .ok ((e.key, e.value) :: st)
  | .ifFound =>
    match dmLookup st e.key with
    | some _ => .ok ((e.key, e.value) :: dmDeleteKey st e.key)
    | none => .error .keyNotFound
  | .always => .ok ((e.key, e.value) :: dmDeleteKey st e.key)

/-- tryLock (lock.go): attempt the conditional put.  The 10 ms polling loop is
time-dependent; in this sequential model a key that stays held yields
LockNotAcquired at the deadline, and every other error propagates. -/
def tryLock (st : DMapState) (e : Env) (_deadline : Int) :
    Except DErr DMapState :=
  match dmPut st e with
  | .ok st' => .ok st'
  | .error err =>
    if err = .keyFound then .error .lockNotAcquired else .error err

/-- The LockContext fields a caller receives (lock.go; the DMap back-pointer
is dropped). -/
structure LockContextM where
  name : String
  key : String
  token : Bytes
deriving DecidableEq

/-- lockKey (lock.go): build the env with condition IfNotFound over the
16-byte random token (token generation is outside the model and enters as an
input), run tryLock, and on success hand back the LockContext.  -/
def lockKey (st : DMapState) (token : Bytes) (opcode : OpCode)
    (dmName k : String) (timeout deadline : Int) :
    Except DErr (LockContextM × DMapState) :=
  let e := prepareAndSerialize opcode dmName k token timeout .ifNotFound
  match tryLock st e deadline with
  | .error err => .error err
  | .ok st' => .ok (⟨dmName, k, token⟩, st')

/-- LockWithTimeout (lock.go): lockKey with opcode PutIfEx. -/
def LockWithTimeout (st : DMapState) (token : Bytes) (dmName k : String)
    (timeout deadline : Int) : Except DErr (LockContextM × DMapState) :=
  lockKey st token .putIfEx dmName k timeout deadline

/-- Lock (lock.go): lockKey with opcode PutIf and the nilTimeout sentinel. -/
def Lock (st : DMapState) (token : Bytes) (dmName k : String)
    (deadline : Int) : Except DErr (LockContextM × DMapState) :=
  lockKey st token .putIf dmName k nilTimeout deadline

instance {ε α : Type} [DecidableEq ε] [DecidableEq α] :
    DecidableEq (Except ε α) := fun x y =>
  match x, y with
  | .ok a, .ok b =>
    if h : a = b then isTrue (by rw [h])
    else isFalse (fun hc => h (by injection hc))
  | .error a, .error b =>
    if h : a = b then isTrue (by rw [h])
    else isFalse (fun hc => h (by injection hc))
  | .ok _, .error _ => isFalse (fun hc => Except.noConfusion hc)
  | .error _, .ok _ => isFalse (fun hc => Except.noConfusion hc)

/-! Concrete sample states used by witnesses and counterexamples. -/

/-- A sample entry stored under hkey 1 (frame length 23 bytes). -/
def sampleEntryA : Entry := ⟨"k", [1], 0, 0⟩

/-- A second sample entry for the same hkey with a different value. -/
def sampleEntryB : Entry := ⟨"k", [2], 0, 0⟩

/-- A minimum-capacity table holding sampleEntryA under hkey 1. -/
def sampleTableA : Table := ⟨[(1, sampleEntryA)], 23, 23, 0, 65536⟩

/-- A minimum-capacity table holding sampleEntryB under hkey 1. -/
def sampleTableB : Table := ⟨[(1, sampleEntryB)], 23, 23, 0, 65536⟩

/-- An artificial zero-capacity table: any put on it reports NotEnoughSpace. -/
def tinyTable : Table := ⟨[], 0, 0, 0, 0⟩

/-- An artificial table whose garbage (2) reaches 40 percent of its allocated
capacity (5). -/
def fragTable : Table := ⟨[], 0, 0, 2, 5⟩

/-- The engine state produced by putting sampleEntryB under hkey 2 into a
single-table chain holding sampleTableA. -/
def putSampleResult : KVStore :=
  ⟨[⟨[(2, sampleEntryB), (1, sampleEntryA)], 46, 46, 0, 65536⟩]⟩

/-! Claim theorems. -/

/-- C8: Export fails with Fragmented exactly when the chain length is not 1;
on a single-table chain it succeeds and serializes that table's hkeys index,
offset, allocated, inuse and garbage (the memory prefix is carried by the
index entries in this model). -/
theorem Export_fragmented_iff (kv : KVStore) :
    (kv.Export = .error .fragmented ↔ kv.tables.length ≠ 1) ∧
    (∀ t, kv.tables = [t] →
      kv.Export = .ok ⟨t.hkeys, t.offset, t.allocated, t.inuse, t.garbage⟩) := by
  constructor
  · match hkv : kv.tables with
    | [] => simp [KVStore.Export, hkv]
    | [t] => simp [KVStore.Export, hkv]
    | a :: b :: rest => simp [KVStore.Export, hkv]
  · intro t ht
    simp [KVStore.Export, ht]

/-- Witness for C8 at a concrete single-table engine. -/
theorem Export_fragmented_iff_witness :
    KVStore.Export ⟨[sampleTableA]⟩ =
      .ok ⟨sampleTableA.hkeys, sampleTableA.offset, sampleTableA.allocated,
        sampleTableA.inuse, sampleTableA.garbage⟩ :=
  (Export_fragmented_iff ⟨[sampleTableA]⟩).2 sampleTableA rfl

/-- C3: for a chain of length exactly 1 (whose table satisfies the capacity
invariant minimumSize ≤ allocated that holds for every table the engine
creates), Import of Export yields a fresh engine with exactly one table, the
same Len, the same Stats and the same Get result for every hkey. -/
theorem Import_Export_roundtrip (t : Table)
    (halloc : minimumSize ≤ t.allocated) :
    KVStore.Export ⟨[t]⟩ =
      .ok ⟨t.hkeys, t.offset, t.allocated, t.inuse, t.garbage⟩ ∧
    KVStore.Import ⟨t.hkeys, t.offset, t.allocated, t.inuse, t.garbage⟩ =
      ⟨[t]⟩ ∧
    ((KVStore.Import
      ⟨t.hkeys, t.offset, t.allocated, t.inuse, t.garbage⟩).tables.length = 1) ∧
    (KVStore.Import ⟨t.hkeys, t.offset, t.allocated, t.inuse, t.garbage⟩).Len =
      (⟨[t]⟩ : KVStore).Len ∧
    (KVStore.Import
      ⟨t.hkeys, t.offset, t.allocated, t.inuse, t.garbage⟩).Stats =
      (⟨[t]⟩ : KVStore).Stats ∧
    ∀ hk, (KVStore.Import
      ⟨t.hkeys, t.offset, t.allocated, t.inuse, t.garbage⟩).Get hk =
      (⟨[t]⟩ : KVStore).Get hk := by
  have himp : KVStore.Import
      ⟨t.hkeys, t.offset, t.allocated, t.inuse, t.garbage⟩ = ⟨[t]⟩ := by
    obtain ⟨hks, off, inu, gar, alloc⟩ := t
    simp only [KVStore.Import, newTable]
    simp only at halloc
    rw [Nat.max_eq_right halloc]
  refine ⟨by simp [KVStore.Export], himp, by simp [himp], by rw [himp],
    by rw [himp], fun hk => by rw [himp]⟩


/-- Witness for C3 at a concrete single-table engine. -/
theorem Import_Export_roundtrip_witness :
    KVStore.Import ⟨sampleTableA.hkeys, sampleTableA.offset,
      sampleTableA.allocated, sampleTableA.inuse, sampleTableA.garbage⟩ =
      ⟨[sampleTableA]⟩ ∧
    (KVStore.Import ⟨sampleTableA.hkeys, sampleTableA.offset,
      sampleTableA.allocated, sampleTableA.inuse, sampleTableA.garbage⟩).Get 1 =
      (⟨[sampleTableA]⟩ : KVStore).Get 1 :=
  ⟨(Import_Export_roundtrip sampleTableA (by decide)).2.1,
   (Import_Export_roundtrip sampleTableA (by decide)).2.2.2.2.2 1⟩

/-- C9: Lock(key, deadline) coincides with
LockWithTimeout(key, nilTimeout, deadline): both build the same IfNotFound env
with no expiry over the same token (the differing opcode selects only the
remote message type), and they return identical results, LockContext fields
included. -/
theorem Lock_eq_LockWithTimeout_nilTimeout (st : DMapState) (token : Bytes)
    (dmName k : String) (deadline : Int) :
    Lock st token dmName k deadline =
      LockWithTimeout st token dmName k nilTimeout deadline ∧
    prepareAndSerialize .putIf dmName k token nilTimeout .ifNotFound =
      prepareAndSerialize .putIfEx dmName k token nilTimeout .ifNotFound :=
  ⟨rfl, rfl⟩

/-- C4: unlockKey returns NoSuchLock exactly when the key is absent or the
decoded stored value is not byte-for-byte equal to the token; the key is
deleted exactly when the stored value equals the token and the delete
succeeds; a delete failure is returned wrapped with the tag
"unlock failed because of delete". -/
theorem unlockKey_spec (st : DMapState) (delErr : Option DErr) (k : String)
    (token : Bytes) :
    ((unlockKey st delErr k token).1 = .error .noSuchLock ↔
      (dmGet st k = .error .keyNotFound ∨
        ∃ v, dmGet st k = .ok v ∧ v ≠ token)) ∧
    ((unlockKey st delErr k token).2 =
      if dmGet st k = .ok token ∧ delErr = none
      then dmDeleteKey st k else st) ∧
    (∀ e, delErr = some e → dmGet st k = .ok token →
      (unlockKey st delErr k token).1 =
        .error (.wrapped "unlock failed because of delete" e)) := by
  rcases hget : dmGet st k with he | v
  · have hkn : he = .keyNotFound := by
      unfold dmGet at hget
      cases hl : dmLookup st k with
      | none =>
        rw [hl] at hget
        injection hget with hget
        exact hget.symm
      | some w =>
        rw [hl] at hget
        exact Except.noConfusion hget
    subst hkn
    have hred : unlockKey st delErr k token = (.error .noSuchLock, st) := by
      unfold unlockKey
      rw [hget]
      simp
    refine ⟨?_, ?_, ?_⟩
    · rw [hred]
      simp [hget]
    · rw [hred, if_neg]
      rintro ⟨h1, _⟩
      exact Except.noConfusion h1
    · intro e _ hc
      exact Except.noConfusion hc
  · by_cases hvt : v = token
    · subst hvt
      cases delErr with
      | some e =>
        have hred : unlockKey st (some e) k v =
            (.error (.wrapped "unlock failed because of delete" e), st) := by
          unfold unlockKey
          rw [hget]
          simp [unmarshalValue]
        refine ⟨?_, ?_, ?_⟩
        · rw [hred]
          constructor
          · intro hc
            simp at hc
          · rintro (hc | ⟨v', hv', hne⟩)
            · exact Except.noConfusion hc
            · injection hv' with hv'
              exact absurd hv'.symm hne
        · rw [hred, if_neg]
          rintro ⟨_, h2⟩
          exact Option.noConfusion h2
        · intro e' he' _
          injection he' with he'
          subst he'
          rw [hred]
      | none =>
        have hred : unlockKey st none k v = (.ok (), dmDeleteKey st k) := by
          unfold unlockKey
          rw [hget]
          simp [unmarshalValue]
        refine ⟨?_, ?_, ?_⟩
        · rw [hred]
          constructor
          · intro hc
            exact Except.noConfusion hc
          · rintro (hc | ⟨v', hv', hne⟩)
            · exact Except.noConfusion hc
            · injection hv' with hv'
              exact absurd hv'.symm hne
        · rw [hred, if_pos ⟨rfl, rfl⟩]
        · intro e' he' _
          exact Option.noConfusion he'
    · have hred : unlockKey st delErr k token = (.error .noSuchLock, st) := by
        unfold unlockKey
        rw [hget]
        simp [unmarshalValue, hvt]
      refine ⟨?_, ?_, ?_⟩
      · rw [hred]
        exact ⟨fun _ => Or.inr ⟨v, rfl, hvt⟩, fun _ => rfl⟩
      · rw [hred, if_neg]
        rintro ⟨h1, _⟩
        injection h1 with h1
        exact hvt h1
      · intro e _ hc
        injection hc with hc
        exact absurd hc hvt

/-- Witness for C4: a held lock with the matching token whose delete fails is
reported wrapped, and the state is unchanged. -/
theorem unlockKey_spec_witness :
    (unlockKey [("dk", [3, 4])] (some (.other "boom")) "dk" [3, 4]).1 =
      .error (.wrapped "unlock failed because of delete" (.other "boom")) ∧
    (unlockKey [("dk", [3, 4])] (some (.other "boom")) "dk" [3, 4]).2 =
      [("dk", [3, 4])] :=
  ⟨(unlockKey_spec [("dk", [3, 4])] (some (.other "boom")) "dk" [3, 4]).2.2
      (.other "boom") rfl (by decide),
   by decide⟩

/-- A scan over tables that all miss the key yields nothing. -/
theorem scanGet_of_all_none (hk : Nat) :
    ∀ L : List Table, (∀ t ∈ L, t.lookup hk = none) → scanGet L hk = none := by
  intro L
  induction L with
  | nil => intro _; rfl
  | cons t rest ih =>
    intro hall
    have ht : t.lookup hk = none := hall t (by simp)
    simp only [scanGet, Table.get, ht]
    exact ih (fun u hu => hall u (by simp [hu]))

/-- A scan returns the entry of the first table that holds the key. -/
theorem scanGet_hit (hk : Nat) (e : Entry) :
    ∀ (pre : List Table) (t : Table) (post : List Table),
      (∀ u ∈ pre, u.lookup hk = none) → t.lookup hk = some e →
      scanGet (pre ++ t :: post) hk = some e := by
  intro pre
  induction pre with
  | nil =>
    intro t post _ ht
    simp only [List.nil_append, scanGet, Table.get, ht]
  | cons u rest ih =>
    intro t post hall ht
    have hu : u.lookup hk = none := hall u (by simp)
    simp only [List.cons_append, scanGet, Table.get, hu]
    exact ih t post (fun w hw => hall w (by simp [hw])) ht

/-- C2: whenever the put on the newest table fails with NotEnoughSpace, the
Put loop appends a table whose capacity is max(minimumSize, 2*Inuse()) — in
particular never below the 65,536-byte minimum — and retries with the
Fragmented signal remembered. -/
theorem Put_growth (fuel : Nat) (kv : KVStore) (hk : Nat) (e : Entry)
    (res : Option SErr) (t : Table)
    (hlast : kv.tables.getLast? = some t)
    (hfail : t.put hk e = none) :
    putLoop (fuel + 1) kv hk e res =
      putLoop fuel ⟨kv.tables ++ [newTable (kv.Inuse * 2)]⟩ hk e
        (some .fragmented) ∧
    (newTable (kv.Inuse * 2)).allocated = max minimumSize (kv.Inuse * 2) ∧
    minimumSize ≤ (newTable (kv.Inuse * 2)).allocated := by
  refine ⟨?_, rfl, Nat.le_max_left _ _⟩
  simp only [putLoop, hlast, hfail]

/-- Witness for C2: a put that does not fit triggers exactly this growth. -/
theorem Put_growth_witness :
    putLoop 1 ⟨[tinyTable]⟩ 1 sampleEntryA none =
      putLoop 0
        ⟨[tinyTable] ++ [newTable ((⟨[tinyTable]⟩ : KVStore).Inuse * 2)]⟩ 1
        sampleEntryA (some .fragmented) ∧
    (newTable ((⟨[tinyTable]⟩ : KVStore).Inuse * 2)).allocated =
      max minimumSize ((⟨[tinyTable]⟩ : KVStore).Inuse * 2) ∧
    minimumSize ≤ (newTable ((⟨[tinyTable]⟩ : KVStore).Inuse * 2)).allocated :=
  Put_growth 0 ⟨[tinyTable]⟩ 1 sampleEntryA none tinyTable (by decide)
    (by decide)

/-- C5: Get scans the chain from the newest (last) table to the oldest and
returns the entry of the first table that does not report "previous" — the
newest table holding the key wins — and when every table reports "previous"
it returns KeyNotFound. -/
theorem Get_scans_newest_first (kv : KVStore) (hk : Nat) :
    (kv.tables ≠ [] → (∀ t ∈ kv.tables, t.lookup hk = none) →
      kv.Get hk = .error .keyNotFound) ∧
    (∀ (pre : List Table) (t : Table) (post : List Table) (e : Entry),
      kv.tables = pre ++ t :: post → t.lookup hk = some e →
      (∀ u ∈ post, u.lookup hk = none) → kv.Get hk = .ok e) := by
  constructor
  · intro _ hall
    have h := scanGet_of_all_none hk kv.tables.reverse
      (fun t ht => hall t (List.mem_reverse.mp ht))
    simp [KVStore.Get, h]
  · intro pre t post e hsplit ht hall
    have hrev : kv.tables.reverse = post.reverse ++ t :: pre.reverse := by
      rw [hsplit]
      simp
    have h := scanGet_hit hk e post.reverse t pre.reverse
      (fun u hu => hall u (List.mem_reverse.mp hu)) ht
    unfold KVStore.Get
    rw [hrev, h]

/-- Witness for C5: with two tables holding hkey 1, Get returns the newer
table's entry. -/
theorem Get_scans_newest_first_witness :
    (⟨[sampleTableA, sampleTableB]⟩ : KVStore).Get 1 = .ok sampleEntryB :=
  (Get_scans_newest_first ⟨[sampleTableA, sampleTableB]⟩ 1).2
    [sampleTableA] sampleTableB [] sampleEntryB rfl (by decide) (by simp)

/-- A nonempty list has a last element. -/
theorem getLast?_of_ne_nil {α : Type} :
    ∀ l : List α, l ≠ [] → ∃ a, l.getLast? = some a
  | [], h => absurd rfl h
  | [a], _ => ⟨a, rfl⟩
  | a :: b :: rest, _ => by
    obtain ⟨x, hx⟩ := getLast?_of_ne_nil (b :: rest) (by simp)
    exact ⟨x, by rw [List.getLast?_cons_cons]; exact hx⟩

/-- After a successful table put the key maps to the new entry. -/
theorem Table.put_lookup (t t' : Table) (hk : Nat) (e : Entry)
    (h : t.put hk e = some t') : t'.lookup hk = some e := by
  unfold Table.put at h
  by_cases hsp : t.allocated < t.offset + e.encodedLen
  · rw [if_pos hsp] at h
    exact Option.noConfusion h
  · rw [if_neg hsp] at h
    cases hl : t.lookup hk with
    | some prior =>
      rw [hl] at h
      injection h with h
      subst h
      unfold Table.lookup
      rw [List.find?_cons_of_pos _ (by simp)]
      rfl
    | none =>
      rw [hl] at h
      injection h with h
      subst h
      unfold Table.lookup
      rw [List.find?_cons_of_pos _ (by simp)]
      rfl

/-- Behaviour of the Put retry loop on normal return: the entry is readable
from the resulting chain, the chain has not shrunk, and the returned soft
signal is Fragmented exactly when the chain grew (else the accumulator). -/
theorem putLoop_ok (hk : Nat) (e : Entry) :
    ∀ (fuel : Nat) (kv : KVStore) (res : Option SErr) (kv' : KVStore)
      (res' : Option SErr), kv.tables ≠ [] →
      putLoop fuel kv hk e res = .ok kv' res' →
      kv'.Get hk = .ok e ∧ kv.tables.length ≤ kv'.tables.length ∧
      res' = (if kv.tables.length < kv'.tables.length
              then some .fragmented else res) := by
  intro fuel
  induction fuel with
  | zero =>
    intro kv res kv' res' _ h
    exact absurd h (by simp [putLoop])
  | succ fuel ih =>
    intro kv res kv' res' hne h
    obtain ⟨t, hlast⟩ := getLast?_of_ne_nil kv.tables hne
    simp only [putLoop, hlast] at h
    cases hput : t.put hk e with
    | some t' =>
      rw [hput] at h
      simp only at h
      have hkv : (⟨kv.tables.dropLast ++ [t']⟩ : KVStore) = kv' := by
        injection h
      have hres : res = res' := by injection h
      subst hkv
      subst hres
      have hlen : (kv.tables.dropLast ++ [t'] : List Table).length =
          kv.tables.length := by
        have hpos : 0 < kv.tables.length := List.length_pos.mpr hne
        simp [List.length_dropLast]
        omega
      refine ⟨?_, ?_, ?_⟩
      · unfold KVStore.Get
        have hrev : (kv.tables.dropLast ++ [t'] : List Table).reverse =
            t' :: kv.tables.dropLast.reverse := by simp
        rw [hrev]
        simp only [scanGet, Table.get, Table.put_lookup t t' hk e hput]
      · exact Nat.le_of_eq hlen.symm
      · rw [if_neg]
        simp [hlen]
    | none =>
      rw [hput] at h
      simp only at h
      have hne2 : (kv.tables ++ [newTable (kv.Inuse * 2)] : List Table) ≠ [] := by
        simp
      obtain ⟨hget, hle, hres⟩ :=
        ih ⟨kv.tables ++ [newTable (kv.Inuse * 2)]⟩ (some .fragmented) kv'
          res' hne2 h
      have hlen1 : (kv.tables ++ [newTable (kv.Inuse * 2)] : List Table).length =
          kv.tables.length + 1 := by simp
      have hlt : kv.tables.length < kv'.tables.length := by
        simp only [hlen1] at hle
        omega
      refine ⟨hget, Nat.le_of_lt hlt, ?_⟩
      rw [if_pos hlt, hres]
      rcases Nat.lt_or_ge
          ((kv.tables ++ [newTable (kv.Inuse * 2)] : List Table).length)
          kv'.tables.length with hc | hc
      · rw [if_pos hc]
      · rw [if_neg (Nat.not_lt.mpr hc)]

/-- C6: Put returns the soft Fragmented signal exactly when the call
allocated at least one new table; in that case (and in every successful
return) the put itself succeeded and the entry is readable by Get, so
Fragmented never accompanies a failed put. -/
theorem Put_fragmented_iff (fuel : Nat) (kv kv' : KVStore) (hk : Nat)
    (e : Entry) (res' : Option SErr)
    (h : KVStore.Put fuel kv hk e = .ok kv' res') :
    (res' = some .fragmented ↔ kv.tables.length < kv'.tables.length) ∧
    kv'.Get hk = .ok e := by
  unfold KVStore.Put at h
  by_cases hz : kv.tables.length = 0
  · rw [if_pos hz] at h
    exact absurd h (by simp)
  · rw [if_neg hz] at h
    have hne : kv.tables ≠ [] := by
      intro hc
      exact hz (by simp [hc])
    obtain ⟨hget, _, hres⟩ := putLoop_ok hk e fuel kv none kv' res' hne h
    refine ⟨?_, hget⟩
    rw [hres]
    by_cases hlt : kv.tables.length < kv'.tables.length
    · simp [hlt]
    · simp [hlt]

/-- Witness for C6: a fitting put allocates nothing and returns no signal,
and the entry is immediately readable. -/
theorem Put_fragmented_iff_witness :
    ((none : Option SErr) = some .fragmented ↔
      (⟨[sampleTableA]⟩ : KVStore).tables.length <
        putSampleResult.tables.length) ∧
    putSampleResult.Get 2 = .ok sampleEntryB :=
  Put_fragmented_iff 1 ⟨[sampleTableA]⟩ putSampleResult 2 sampleEntryB none
    (by decide)

/-- The deletion pass never changes the chain length. -/
theorem scanDelete_length (hk : Nat) :
    ∀ L : List Table, (scanDelete L hk).length = L.length := by
  intro L
  induction L with
  | nil => rfl
  | cons t rest ih =>
    cases ht : t.delete hk with
    | mk t' prev =>
      cases prev with
      | true => simp [scanDelete, ht, ih]
      | false => simp [scanDelete, ht]

/-- C7: after the deletion pass, if the chain has exactly one table whose
garbage is at least 40 percent of its allocated capacity (float64 0.40
modelled as the exact rational 2/5), Delete appends a fresh empty table sized
from twice the engine's inuse and returns Fragmented; in every other case it
returns no error and the chain length is unchanged. -/
theorem Delete_fragmentation (kv : KVStore) (hk : Nat) :
    ((deletionPass kv hk).length = kv.tables.length) ∧
    (∀ t, deletionPass kv hk = [t] → 2 * t.allocated ≤ 5 * t.garbage →
      kv.Delete hk = (⟨[t, newTable (t.inuse * 2)]⟩, some .fragmented)) ∧
    (∀ t, deletionPass kv hk = [t] → ¬ 2 * t.allocated ≤ 5 * t.garbage →
      kv.Delete hk = (⟨[t]⟩, none) ∧
      (kv.Delete hk).1.tables.length = kv.tables.length) ∧
    ((deletionPass kv hk).length ≠ 1 →
      kv.Delete hk = (⟨deletionPass kv hk⟩, none) ∧
      (kv.Delete hk).1.tables.length = kv.tables.length) := by
  have hlen : (deletionPass kv hk).length = kv.tables.length := by
    unfold deletionPass
    rw [List.length_reverse, scanDelete_length, List.length_reverse]
  refine ⟨hlen, ?_, ?_, ?_⟩
  · intro t hts hgar
    simp only [KVStore.Delete, hts]
    rw [if_pos hgar]
    simp [inuseL]
  · intro t hts hgar
    have hres : kv.Delete hk = (⟨[t]⟩, none) := by
      simp only [KVStore.Delete, hts]
      rw [if_neg hgar]
    refine ⟨hres, ?_⟩
    rw [hres, ← hlen, hts]
  · intro hone
    cases hts : deletionPass kv hk with
    | nil =>
      have hres : kv.Delete hk = (⟨[]⟩, none) := by
        simp only [KVStore.Delete, hts]
      refine ⟨hres, ?_⟩
      rw [hres, ← hlen, hts]
    | cons a rest =>
      cases rest with
      | nil =>
        rw [hts] at hone
        exact absurd rfl hone
      | cons b rest' =>
        have hres : kv.Delete hk = (⟨a :: b :: rest'⟩, none) := by
          simp only [KVStore.Delete, hts]
        refine ⟨hres, ?_⟩
        rw [hres, ← hlen, hts]

/-- Witness for C7: a single table at the 40 percent garbage threshold makes
Delete append a fresh minimum-size table and report Fragmented. -/
theorem Delete_fragmentation_witness :
    KVStore.Delete ⟨[fragTable]⟩ 1 =
      (⟨[fragTable, newTable (fragTable.inuse * 2)]⟩, some .fragmented) :=
  (Delete_fragmentation ⟨[fragTable]⟩ 1).2.1 fragTable (by decide) (by decide)

/-- Reversal does not change how many tables hold the key. -/
theorem countP_reverse_eq {α : Type} (p : α → Bool) :
    ∀ l : List α, l.reverse.countP p = l.countP p := by
  intro l
  induction l with
  | nil => rfl
  | cons a l ih =>
    simp [List.countP_cons, List.countP_append, ih, Nat.add_comm]

/-- After a table delete the key is gone from that table. -/
theorem Table.delete_lookup (t : Table) (hk : Nat) :
    ((t.delete hk).1).lookup hk = none := by
  unfold Table.delete
  cases hl : t.lookup hk with
  | none => exact hl
  | some prior =>
    show ((t.hkeys.filter (fun p => p.1 != hk)).find?
      (fun p => p.1 == hk)).map (fun p => p.2) = none
    rw [List.find?_eq_none.mpr]
    · rfl
    · intro x hx
      have hmem := (List.mem_filter.mp hx).2
      simpa using hmem

/-- A fresh table holds no key. -/
theorem newTable_lookup (size hk : Nat) : (newTable size).lookup hk = none :=
  rfl

/-- When at most one table of the scanned chain holds the key, every table of
the deletion pass misses it afterwards. -/
theorem scanDelete_all_none (hk : Nat) :
    ∀ L : List Table, L.countP (fun t => (t.lookup hk).isSome) ≤ 1 →
      ∀ u ∈ scanDelete L hk, u.lookup hk = none := by
  intro L
  induction L with
  | nil =>
    intro _ u hu
    exact absurd hu (by simp [scanDelete])
  | cons t rest ih =>
    intro hcount u hu
    cases hl : t.lookup hk with
    | none =>
      have hdel : t.delete hk = (t, true) := by
        unfold Table.delete
        rw [hl]
      simp only [scanDelete, hdel] at hu
      rcases List.mem_cons.mp hu with hut | hur
      · rw [hut]
        exact hl
      · refine ih ?_ u hur
        rw [List.countP_cons] at hcount
        simpa [hl] using hcount
    | some prior =>
      have hdel1 : ((t.delete hk).1).lookup hk = none :=
        Table.delete_lookup t hk
      have hrest : rest.countP (fun w => (w.lookup hk).isSome) = 0 := by
        rw [List.countP_cons] at hcount
        simp only [hl, Option.isSome_some, if_pos] at hcount
        omega
      have hdel : t.delete hk = ((t.delete hk).1, false) := by
        unfold Table.delete
        rw [hl]
      simp only [scanDelete] at hu
      rw [hdel] at hu
      simp only at hu
      rcases List.mem_cons.mp hu with hut | hur
      · rw [hut]
        exact hdel1
      · have := List.countP_eq_zero.mp hrest u hur
        simpa using this

/-- The chain Delete leaves behind: either exactly the deletion pass, or the
deletion pass (a single table) plus the freshly appended table. -/
theorem Delete_tables (kv : KVStore) (hk : Nat) :
    (kv.Delete hk).1.tables = deletionPass kv hk ∨
    ∃ t, deletionPass kv hk = [t] ∧
      (kv.Delete hk).1.tables = [t, newTable (t.inuse * 2)] := by
  cases hts : deletionPass kv hk with
  | nil =>
    left
    simp only [KVStore.Delete, hts]
  | cons a rest =>
    cases rest with
    | nil =>
      by_cases hgar : 2 * a.allocated ≤ 5 * a.garbage
      · right
        refine ⟨a, rfl, ?_⟩
        have h := (Delete_fragmentation kv hk).2.1 a hts hgar
        rw [h]
      · left
        have h := ((Delete_fragmentation kv hk).2.2.1 a hts hgar).1
        rw [h]
    | cons b rest' =>
      left
      simp only [KVStore.Delete, hts]

/-- C1 counterexample: with two tables both holding hkey 1, Delete(1) removes
only the newest copy (the scan breaks at the first table that held the key),
so Get(1) returns the older table's entry instead of KeyNotFound. -/
theorem Delete_not_total_counterexample :
    ((KVStore.Delete ⟨[sampleTableA, sampleTableB]⟩ 1).1.Get 1 ≠
      .error .keyNotFound) ∧
    (KVStore.Delete ⟨[sampleTableA, sampleTableB]⟩ 1).1.Get 1 =
      .ok sampleEntryA := by
  decide

/-- C1 amended: Delete scans newest to oldest but deletes only from the first
(newest) table that holds the key; hence when at most one table holds the
key, Delete is total and a subsequent Get reports KeyNotFound. -/
theorem Delete_total_of_at_most_one (kv : KVStore) (hk : Nat)
    (hone : kv.tables.countP (fun t => (t.lookup hk).isSome) ≤ 1) :
    ((kv.Delete hk).1).Get hk = .error .keyNotFound := by
  have hrev : kv.tables.reverse.countP (fun t => (t.lookup hk).isSome) ≤ 1 := by
    rw [countP_reverse_eq]
    exact hone
  have hpass : ∀ u ∈ deletionPass kv hk, u.lookup hk = none := by
    intro u hu
    exact scanDelete_all_none hk kv.tables.reverse hrev u
      (List.mem_reverse.mp hu)
  have hall : ∀ u ∈ (kv.Delete hk).1.tables, u.lookup hk = none := by
    rcases Delete_tables kv hk with hcase | ⟨t, hts, hcase⟩
    · intro u hu
      rw [hcase] at hu
      exact hpass u hu
    · intro u hu
      rw [hcase] at hu
      rcases List.mem_cons.mp hu with hut | hur
      · rw [hut]
        exact hpass t (by rw [hts]; simp)
      · have : u = newTable (t.inuse * 2) := by simpa using hur
        rw [this]
        exact newTable_lookup _ hk
  have hscan := scanGet_of_all_none hk (kv.Delete hk).1.tables.reverse
    (fun u hu => hall u (List.mem_reverse.mp hu))
  simp [KVStore.Get, hscan]

/-- Witness for the amended C1: deleting the only copy of hkey 1 makes Get
report KeyNotFound. -/
theorem Delete_total_of_at_most_one_witness :
    ((KVStore.Delete ⟨[sampleTableA]⟩ 1).1).Get 1 = .error .keyNotFound :=
  Delete_total_of_at_most_one ⟨[sampleTableA]⟩ 1 (by decide)

/-- The Put loop never reaches the empty-chain panic from a nonempty chain. -/
theorem putLoop_no_panic (hk : Nat) (e : Entry) :
    ∀ (fuel : Nat) (kv : KVStore) (res : Option SErr), kv.tables ≠ [] →
      putLoop fuel kv hk e res ≠ .panicked := by
  intro fuel
  induction fuel with
  | zero =>
    intro kv res _ h
    exact absurd h (by simp [putLoop])
  | succ fuel ih =>
    intro kv res hne h
    obtain ⟨t, hlast⟩ := getLast?_of_ne_nil kv.tables hne
    simp only [putLoop, hlast] at h
    cases hput : t.put hk e with
    | some t' =>
      rw [hput] at h
      exact PutResult.noConfusion h
    | none =>
      rw [hput] at h
      exact ih ⟨kv.tables ++ [newTable (kv.Inuse * 2)]⟩ (some .fragmented)
        (by simp) h

/-- C10: every reachable engine state has a nonempty table chain — New
installs one table, Put and Delete only preserve or append tables, Import
installs one — so the "tables cannot be empty" panic branches can never
fire. -/
theorem tables_nonempty_invariant (kv : KVStore) (h : Reachable kv) :
    kv.tables ≠ [] ∧ 1 ≤ kv.tables.length ∧
    ∀ fuel hk e, KVStore.Put fuel kv hk e ≠ .panicked := by
  have hne : kv.tables ≠ [] := by
    induction h with
    | new size => simp [KVStore.New]
    | put kv kv' fuel hk e res _ hput ih =>
      unfold KVStore.Put at hput
      have hz : ¬ kv.tables.length = 0 := by
        intro hc
        rw [if_pos hc] at hput
        exact PutResult.noConfusion hput
      rw [if_neg hz] at hput
      obtain ⟨_, hle, _⟩ := putLoop_ok hk e fuel kv none kv' res ih hput
      have : 0 < kv'.tables.length := by
        have := List.length_pos.mpr ih
        omega
      exact List.length_pos.mp this
    | del kv hk _ ih =>
      rcases Delete_tables kv hk with hcase | ⟨t, _, hcase⟩
      · have hlen := (Delete_fragmentation kv hk).1
        have : 0 < (kv.Delete hk).1.tables.length := by
          rw [hcase, hlen]
          exact List.length_pos.mpr ih
        exact List.length_pos.mp this
      · rw [hcase]
        simp
    | imp tr => simp [KVStore.Import]
  refine ⟨hne, List.length_pos.mpr hne, ?_⟩
  intro fuel hk e hc
  unfold KVStore.Put at hc
  rw [if_neg (Nat.pos_iff_ne_zero.mp (List.length_pos.mpr hne))] at hc
  exact putLoop_no_panic hk e fuel kv none hne hc

/-- Witness for C10 at the freshly created engine. -/
theorem tables_nonempty_invariant_witness :
    (KVStore.New 0).tables ≠ [] ∧ 1 ≤ (KVStore.New 0).tables.length ∧
    KVStore.Put 1 (KVStore.New 0) 1 sampleEntryA ≠ .panicked :=
  ⟨(tables_nonempty_invariant (KVStore.New 0) (.new 0)).1,
   (tables_nonempty_invariant (KVStore.New 0) (.new 0)).2.1,
   (tables_nonempty_invariant (KVStore.New 0) (.new 0)).2.2 1 1 sampleEntryA⟩

end Olric
